import Mathlib

/-!
Shallow embedding of the core of `src/main.py` (`run_strategy_logic` and its
helper `get_period_return`): the indicator engine (SMA / RSI), the signal
state machine, the backtest engine, the period-return helper and the holding
summarizer.  Prices, returns and indicator values are modelled as rationals;
pandas' NaN entries (rolling windows that are not yet full, the first `diff`
entry, the shifted position series) are modelled with `Option`/explicit
defaults exactly where the source relies on NaN semantics.
-/

namespace NasdaqQQQ

/-! ## Generic list helpers -/

theorem get?_zipWith_some {α β γ : Type} (f : α → β → γ) :
    ∀ (a : List α) (b : List β) (i : ℕ) (x : α) (y : β),
      a.get? i = some x → b.get? i = some y →
      (List.zipWith f a b).get? i = some (f x y) := by
  intro a
  induction a with
  | nil => intro b i x y h1 _; simp at h1
  | cons p ps ih =>
    intro b i x y h1 h2
    cases b with
    | nil => simp at h2
    | cons q qs =>
      cases i with
      | zero =>
        simp only [List.get?] at h1 h2
        cases h1; cases h2
        rfl
      | succ n =>
        simpa using ih qs n x y (by simpa using h1) (by simpa using h2)

/-- Triple zip, used to feed (price, movingAverage, rsi) rows to the
state machine loop of lines 107-128. -/
def zip3 {α β γ : Type} : List α → List β → List γ → List (α × β × γ)
  | a :: as, b :: bs, c :: cs => (a, b, c) :: zip3 as bs cs
  | _, _, _ => []

theorem zip3_get?_some {α β γ : Type} :
    ∀ (a : List α) (b : List β) (c : List γ) (i : ℕ) (x : α) (y : β) (z : γ),
      a.get? i = some x → b.get? i = some y → c.get? i = some z →
      (zip3 a b c).get? i = some (x, y, z) := by
  intro a
  induction a with
  | nil => intro b c i x y z h1 _ _; simp at h1
  | cons p ps ih =>
    intro b c i x y z h1 h2 h3
    cases b with
    | nil => simp at h2
    | cons q qs =>
      cases c with
      | nil => simp at h3
      | cons r rs =>
        cases i with
        | zero =>
          simp only [List.get?] at h1 h2 h3
          cases h1; cases h2; cases h3
          rfl
        | succ n =>
          simpa [zip3] using ih qs rs n x y z (by simpa using h1)
            (by simpa using h2) (by simpa using h3)

theorem zip3_length {α β γ : Type} :
    ∀ (a : List α) (b : List β) (c : List γ),
      (zip3 a b c).length = min a.length (min b.length c.length) := by
  intro a
  induction a with
  | nil => intro b c; simp [zip3]
  | cons p ps ih =>
    intro b c
    cases b with
    | nil => simp [zip3]
    | cons q qs =>
      cases c with
      | nil => simp [zip3]
      | cons r rs =>
        simp only [zip3, List.length_cons, ih qs rs]
        omega

/-! ## Indicator engine (src/main.py lines 96-102)

`sma_200 = data[indicator].rolling(window=ma_window).mean()` and the RSI
pipeline.  A pandas fixed rolling mean of window `w` is defined at index `i`
iff `w ≤ i + 1`, and then averages the `w` entries ending at `i`. -/

/-- Models `series.rolling(window=w).mean()` on a list of rationals: `none` models
pandas' NaN while the window is not yet full. -/
def rollMean (w : ℕ) (l : List ℚ) : List (Option ℚ) :=
  (List.range l.length).map (fun i =>
    if w ≤ i + 1 then some ((((l.drop (i + 1 - w)).take w).sum) / (w : ℚ)) else none)

/-- Day-over-day differences `p[j+1] - p[j]` (the defined entries of
`data[indicator].diff()`). -/
def realDeltas (p : List ℚ) : List ℚ :=
  List.zipWith (fun prev cur => cur - prev) p p.tail

/-- Models `data[indicator].diff()`: NaN (here `none`) at index 0, then the
day-over-day differences. -/
def deltasOpt (p : List ℚ) : List (Option ℚ) :=
  match p with
  | [] => []
  | _ :: _ => none :: (realDeltas p).map some

def posPart (d : ℚ) : ℚ := if 0 < d then d else 0

def negPart (d : ℚ) : ℚ := if d < 0 then -d else 0

/-- Models `delta.where(delta > 0, 0)`: keeps positive deltas, and replaces both
non-positive deltas and the leading NaN by 0 (pandas `where` fills every
position whose condition is false, NaN included). -/
def gainsList (p : List ℚ) : List ℚ :=
  (deltasOpt p).map (fun o => match o with | some d => posPart d | none => 0)

/-- Models `-delta.where(delta < 0, 0)`: magnitude of negative deltas, 0 elsewhere
(the leading NaN also becomes 0). -/
def lossList (p : List ℚ) : List ℚ :=
  (deltasOpt p).map (fun o => match o with | some d => negPart d | none => 0)

/-- The `1e-10` epsilon of line 100, as an exact rational. -/
def epsilon : ℚ := 1 / 10000000000

/-- Models `loss.rolling(rsi_window).mean().replace(0, 1e-10)` (line 100). -/
def lossReplaced (w : ℕ) (p : List ℚ) : List (Option ℚ) :=
  (rollMean w (lossList p)).map (Option.map (fun x => if x = 0 then epsilon else x))

/-- Models `rs = gain / loss` (line 101); NaN whenever either side is NaN. -/
def rsSeries (w : ℕ) (p : List ℚ) : List (Option ℚ) :=
  List.zipWith (fun g l =>
    match g, l with
    | some gv, some lv => some (gv / lv)
    | _, _ => none) (rollMean w (gainsList p)) (lossReplaced w p)

/-- Models `rsi = 100 - (100 / (1 + rs))` (line 102). -/
def rsiSeries (w : ℕ) (p : List ℚ) : List (Option ℚ) :=
  (rsSeries w p).map (Option.map (fun rs => 100 - 100 / (1 + rs)))

/-! ## Signal state machine (src/main.py lines 104-128) -/

/-- The four tunable thresholds of the state machine
(`bear_buffer`, `bull_buffer`, `rsi_buy_3x`, `rsi_sell_3x`). -/
structure Params where
  bearBuffer : ℚ
  bullBuffer : ℚ
  rsiBuy : ℚ
  rsiSell : ℚ
deriving DecidableEq

/-- The configuration hard-coded at lines 53-59:
`bear_buffer = 0.0`, `bull_buffer = 0.005`, `rsi_buy_3x = 50`,
`rsi_sell_3x = 80`. -/
def defaultParams : Params := ⟨0, 5 / 1000, 50, 80⟩

/-- Python `r > c` where `r` may be NaN: NaN comparisons are false. -/
def optGtB (r : Option ℚ) (c : ℚ) : Bool :=
  match r with
  | some v => decide (c < v)
  | none => false

/-- Python `r < c` where `r` may be NaN: NaN comparisons are false. -/
def optLtB (r : Option ℚ) (c : ℚ) : Bool :=
  match r with
  | some v => decide (v < c)
  | none => false

/-- One iteration of the loop body (lines 108-128): given the running
`current_state` and the day's (price, ma, rsi), returns
(the appended signal, the updated `current_state`).  When `ma` is NaN the
loop appends 2 and `continue`s without touching `current_state`. -/
def stepSignal (q : Params) (st : ℕ) (price : ℚ) (ma : Option ℚ) (r : Option ℚ) :
    ℕ × ℕ :=
  match ma with
  | none => (2, st)
  | some m =>
    if price < m * (1 - q.bearBuffer) then (1, 1)
    else if st = 1 then
      (if m * (1 + q.bullBuffer) < price then (2, 2) else (1, 1))
    else if optGtB r q.rsiSell then (2, 2)
    else if optLtB r q.rsiBuy then (3, 3)
    else (st, st)

/-- The whole `for i in range(len(data))` loop, threading `current_state`
through `stepSignal` and collecting the appended signals. -/
def signalsAux (q : Params) : ℕ → List (ℚ × Option ℚ × Option ℚ) → List ℕ
  | _, [] => []
  | st, d :: rest =>
    (stepSignal q st d.1 d.2.1 d.2.2).1 ::
      signalsAux q (stepSignal q st d.1 d.2.1 d.2.2).2 rest

/-- The signal loop run on the given price series with its rolling mean and
an arbitrary momentum series, starting from `current_state = 2`. -/
def signalsWith (q : Params) (prices : List ℚ) (maW : ℕ) (rs : List (Option ℚ)) :
    List ℕ :=
  signalsAux q 2 (zip3 prices (rollMean maW prices) rs)

/-- The full signal pipeline of lines 96-128: moving average and RSI are both
computed from the indicator price series. -/
def signals (q : Params) (maW rsiW : ℕ) (prices : List ℚ) : List ℕ :=
  signalsWith q prices maW (rsiSeries rsiW prices)

/-! ## Backtest engine (src/main.py lines 136-149) -/

/-- Models `pos_series = pd.Series(signals).shift(1).fillna(2)` (line 136): the
signal list shifted forward by one day, the freshly introduced NaN at index 0
filled with 2 (NEUTRAL). -/
def posSeries (sig : List ℕ) : List ℕ :=
  match sig with
  | [] => []
  | _ :: _ => 2 :: sig.dropLast

/-- Lines 137-140: start from the all-zero series and overwrite each day with
the return of the instrument selected by that day's position
(1 → 1x, 2 → 2x, 3 → 3x); a position outside the three masks would keep the
initial 0.0. -/
def grossReturn : List ℕ → List ℚ → List ℚ → List ℚ → List ℚ
  | p :: ps, a :: as, b :: bs, c :: cs =>
    (if p = 1 then a else if p = 2 then b else if p = 3 then c else 0) ::
      grossReturn ps as bs cs
  | _, _, _, _ => []

/-- Models `trades = (pos_series != pos_series.shift(1)).astype(int)` (line 142).
`pos_series.shift(1)` is NaN at index 0, and in pandas `x != NaN` is True,
so index 0 always compares as a trade; index `i ≥ 1` compares
`pos[i] != pos[i-1]`. -/
def trades (pos : List ℕ) : List Bool :=
  match pos with
  | [] => []
  | p :: rest => true :: List.zipWith (fun cur prev => decide (cur ≠ prev)) rest (p :: rest)

/-- Models `strat_daily_ret -= (trades * transaction_cost)` (line 143). -/
def dailyNetReturn (gross : List ℚ) (pos : List ℕ) (cost : ℚ) : List ℚ :=
  List.zipWith (fun g t => g - (if t then cost else 0)) gross (trades pos)

/-- Number of days on which the transaction cost is subtracted. -/
def chargedCount (pos : List ℕ) : ℕ := (trades pos).count true

/-! ## Period-return helper (src/main.py lines 151-156) -/

/-- Models `get_period_return(cum_series, days_lookback)`: dates are modelled as
integer day numbers; `searchsorted` on the sorted date index is modelled by
its contract, the first position whose date is `≥ target` (`List.findIdx`
returns the length when no entry qualifies, exactly like `searchsorted`). -/
def get_period_return (dates : List ℤ) (vals : List ℚ) (daysLookback : ℕ) : ℚ :=
  if vals.length < daysLookback then 0
  else
    let target : ℤ := dates.getLastD 0 - (daysLookback : ℤ)
    let i0 := dates.findIdx (fun d => decide (target ≤ d))
    let idx := if vals.length ≤ i0 then vals.length - 1 else i0
    vals.getLastD 0 / vals.getD idx 0 - 1

/-! ## Holding summarizer (src/main.py lines 159-171) -/

structure HoldingSummary where
  currentTier : ℕ
  daysHeld : ℕ
  previousTier : Option ℕ
  transitionDate : Option ℤ
deriving DecidableEq

/-- The `for i in range(len(signals) - 2, -1, -1)` loop: the visited
elements `signals[len-2], ..., signals[0]` are passed as a list (namely
`signals.dropLast.reverse`), `n` is `len(signals)` and `cnt` the running
`days_held`.  The element visited at step `cnt` sits at forward index
`n - 2 - cnt`, so the recorded switch date is `dates[n - 1 - cnt]`. -/
def scanBack (last : ℕ) (dates : List ℤ) (n : ℕ) :
    List ℕ → ℕ → ℕ × Option ℕ × Option ℤ
  | [], cnt => (cnt, none, none)
  | s :: rest, cnt =>
    if s = last then scanBack last dates n rest (cnt + 1)
    else (cnt, some s, some (dates.getD (n - 1 - cnt) 0))

/-- Lines 159-171: `last_signal = signals[-1]`, the backward scan, and the
final `days_held += 1`. -/
def summarizeHolding (sig : List ℕ) (dates : List ℤ) : HoldingSummary :=
  let last := sig.getLastD 0
  let r := scanBack last dates sig.length sig.dropLast.reverse 0
  ⟨last, r.1 + 1, r.2.1, r.2.2⟩

/-! ## Python list indexing (for `signals[-2]` at line 179) -/

/-- Python `l[k]` for possibly negative `k`: a negative index is offset by
the length, and any index still out of range raises (modelled as `none`). -/
def pyGet {α : Type} (l : List α) (k : ℤ) : Option α :=
  if k < 0 then
    (if k + l.length < 0 then none else l.get? (k + l.length).toNat)
  else l.get? k.toNat

/-! ## Spec-side definitions

These follow the wording of the specification, to be compared with the
code-side definitions above. -/

/-- Spec wording (Backtest Engine): "the number of days where
`PositionTimeline[i] != PositionTimeline[i-1]`, for `i ≥ 1`". -/
def specSwitchCount (pos : List ℕ) : ℕ :=
  ((List.range pos.length).filter
    (fun i => decide (1 ≤ i) && decide (pos.getD i 0 ≠ pos.getD (i - 1) 0))).length

/-- Spec wording (Indicator Engine): "average of positive deltas over the
trailing `rsiWindow` window" for day `i`; the window of deltas for day `i`
consists of `p[j] - p[j-1]` for `j = i-w+1, ..., i`, i.e. entries
`i-w, ..., i-1` of `realDeltas`. -/
def specAvgGain (p : List ℚ) (w i : ℕ) : ℚ :=
  ((((realDeltas p).map posPart).drop (i - w)).take w).sum / (w : ℚ)

/-- Spec wording: "average magnitude of negative deltas over the same
window". -/
def specAvgLoss (p : List ℚ) (w i : ℕ) : ℚ :=
  ((((realDeltas p).map negPart).drop (i - w)).take w).sum / (w : ℚ)

/-- Spec wording: ratio `r` of the two averages (with the epsilon
substitution when the negative average is zero) and oscillator value
`100 - 100/(1+r)`. -/
def specRsi (p : List ℚ) (w i : ℕ) : ℚ :=
  let al := specAvgLoss p w i
  let r := specAvgGain p w i / (if al = 0 then epsilon else al)
  100 - 100 / (1 + r)

/-- Spec wording (summarizeHolding): `daysHeld` is the length of the maximal
trailing run of the last day's tier. -/
def specDaysHeld (sig : List ℕ) : ℕ :=
  (sig.reverse.takeWhile (fun s => decide (s = sig.getLastD 0))).length

/-- Spec wording: the tier of the first day (scanning backward) that differs
from the last day's tier, if any. -/
def specPrevTier (sig : List ℕ) : Option ℕ :=
  (sig.reverse.drop (specDaysHeld sig)).head?

/-- Spec wording: the date of the day after the first differing day — the
first day the current tier took effect — or `none` when the whole history is
a single run. -/
def specTransitionDate (sig : List ℕ) (dates : List ℤ) : Option ℤ :=
  if specDaysHeld sig = sig.length then none
  else some (dates.getD (sig.length - specDaysHeld sig) 0)

/-! ## Lemmas about the rolling mean -/

theorem rollMean_length (w : ℕ) (l : List ℚ) : (rollMean w l).length = l.length := by
  simp [rollMean]

theorem rollMean_get? (w : ℕ) (l : List ℚ) (i : ℕ) (h : i < l.length) :
    (rollMean w l).get? i =
      some (if w ≤ i + 1 then
        some ((((l.drop (i + 1 - w)).take w).sum) / (w : ℚ)) else none) := by
  simp [rollMean, List.get?_map, List.get?_range, h]

theorem rollMean_defined (w : ℕ) (l : List ℚ) (i : ℕ) (m : ℚ)
    (h : (rollMean w l).get? i = some (some m)) : i < l.length ∧ w ≤ i + 1 := by
  by_cases hi : i < l.length
  · refine ⟨hi, ?_⟩
    rw [rollMean_get? w l i hi] at h
    by_contra hw
    simp [hw] at h
  · rw [List.get?_eq_none.2 (by simpa [rollMean_length] using Nat.le_of_not_lt hi)] at h
    simp at h

theorem rollMean_defined_ge (w : ℕ) (l : List ℚ) (i k : ℕ) (m : ℚ)
    (hik : i ≤ k) (hk : k < l.length)
    (h : (rollMean w l).get? i = some (some m)) :
    ∃ m2, (rollMean w l).get? k = some (some m2) := by
  obtain ⟨-, hw⟩ := rollMean_defined w l i m h
  have hk2 := rollMean_get? w l k hk
  rw [if_pos (show w ≤ k + 1 by omega)] at hk2
  exact ⟨_, hk2⟩

/-! ## Lemmas about the signal state machine -/

theorem signalsAux_length (q : Params) :
    ∀ (days : List (ℚ × Option ℚ × Option ℚ)) (st : ℕ),
      (signalsAux q st days).length = days.length := by
  intro days
  induction days with
  | nil => intro st; rfl
  | cons d rest ih => intro st; simp [signalsAux, ih]

/-- The trend gate dominates: on any day whose moving average is defined and
whose price is strictly below the bear threshold, the loop appends 1,
whatever the running state and the momentum value. -/
theorem signalsAux_bear (q : Params) :
    ∀ (days : List (ℚ × Option ℚ × Option ℚ)) (st i : ℕ) (p m : ℚ) (r : Option ℚ),
      days.get? i = some (p, some m, r) → p < m * (1 - q.bearBuffer) →
      (signalsAux q st days).get? i = some 1 := by
  intro days
  induction days with
  | nil => intro st i p m r h _; simp at h
  | cons d rest ih =>
    intro st i p m r h hlt
    cases i with
    | zero =>
      simp only [List.get?] at h
      cases h
      simp [signalsAux, stepSignal, if_pos hlt]
    | succ n =>
      simpa [signalsAux] using ih _ n p m r (by simpa using h) hlt

/-- While the moving average is undefined the loop appends 2. -/
theorem signalsAux_dormant (q : Params) :
    ∀ (days : List (ℚ × Option ℚ × Option ℚ)) (st i : ℕ) (p : ℚ) (r : Option ℚ),
      days.get? i = some (p, none, r) →
      (signalsAux q st days).get? i = some 2 := by
  intro days
  induction days with
  | nil => intro st i p r h; simp at h
  | cons d rest ih =>
    intro st i p r h
    cases i with
    | zero =>
      simp only [List.get?] at h
      cases h
      simp [signalsAux, stepSignal]
    | succ n =>
      simpa [signalsAux] using ih _ n p r (by simpa using h)

theorem stepSignal_mem (q : Params) (st : ℕ) (p : ℚ) (ma : Option ℚ) (r : Option ℚ)
    (h : st = 1 ∨ st = 2 ∨ st = 3) :
    ((stepSignal q st p ma r).1 = 1 ∨ (stepSignal q st p ma r).1 = 2 ∨
      (stepSignal q st p ma r).1 = 3) ∧
    ((stepSignal q st p ma r).2 = 1 ∨ (stepSignal q st p ma r).2 = 2 ∨
      (stepSignal q st p ma r).2 = 3) := by
  cases ma with
  | none => exact ⟨Or.inr (Or.inl rfl), h⟩
  | some m =>
    simp only [stepSignal]
    split_ifs <;> simp_all

theorem signalsAux_mem (q : Params) :
    ∀ (days : List (ℚ × Option ℚ × Option ℚ)) (st : ℕ),
      (st = 1 ∨ st = 2 ∨ st = 3) →
      ∀ s ∈ signalsAux q st days, s = 1 ∨ s = 2 ∨ s = 3 := by
  intro days
  induction days with
  | nil => intro st _ s hs; simp [signalsAux] at hs
  | cons d rest ih =>
    intro st hst s hs
    obtain ⟨h1, h2⟩ := stepSignal_mem q st d.1 d.2.1 d.2.2 hst
    simp only [signalsAux, List.mem_cons] at hs
    rcases hs with hs | hs
    · subst hs; exact h1
    · exact ih _ h2 s hs

/-- State threading of the loop: `current_state` after the first `n` days. -/
def stateAt (q : Params) (st : ℕ) (days : List (ℚ × Option ℚ × Option ℚ)) (n : ℕ) : ℕ :=
  (days.take n).foldl (fun s d => (stepSignal q s d.1 d.2.1 d.2.2).2) st

theorem signalsAux_split (q : Params) :
    ∀ (n : ℕ) (days : List (ℚ × Option ℚ × Option ℚ)) (st : ℕ),
      signalsAux q st days =
        signalsAux q st (days.take n) ++
          signalsAux q (stateAt q st days n) (days.drop n) := by
  intro n
  induction n with
  | zero => intro days st; simp [stateAt, signalsAux]
  | succ n ih =>
    intro days st
    cases days with
    | nil => simp [signalsAux, stateAt]
    | cons d rest =>
      simp only [signalsAux, List.take_succ_cons, List.drop_succ_cons, stateAt,
        List.foldl_cons, List.cons_append]
      rw [ih rest]
      rfl

/-- The loop appends 1 only from branches that also set `current_state = 1`. -/
theorem stepSignal_emit_one (q : Params) (st : ℕ) (p : ℚ) (ma : Option ℚ)
    (r : Option ℚ) (h : (stepSignal q st p ma r).1 = 1) :
    (stepSignal q st p ma r).2 = 1 := by
  cases ma with
  | none => simp [stepSignal] at h
  | some m =>
    simp only [stepSignal] at h ⊢
    split_ifs at h ⊢ with h1 h2 h3 h4 h5 <;> simp_all

theorem signalsAux_one_state (q : Params) :
    ∀ (days : List (ℚ × Option ℚ × Option ℚ)) (st i : ℕ),
      (signalsAux q st days).get? i = some 1 →
      stateAt q st days (i + 1) = 1 := by
  intro days
  induction days with
  | nil => intro st i h; simp [signalsAux] at h
  | cons d rest ih =>
    intro st i h
    cases i with
    | zero =>
      have h1 : (stepSignal q st d.1 d.2.1 d.2.2).1 = 1 := by
        simpa [signalsAux] using h
      have h2 := stepSignal_emit_one q st d.1 d.2.1 d.2.2 h1
      simp only [stateAt, List.take_succ_cons, List.take_zero, List.foldl_cons,
        List.foldl_nil]
      exact h2
    | succ n =>
      have := ih _ n (by simpa [signalsAux] using h)
      simpa only [stateAt, List.take_succ_cons, List.foldl_cons] using this

/-- Hold in the defensive state: with `current_state = 1`, a defined moving
average and no recovery above the bull threshold, the loop appends 1 and
keeps `current_state = 1`. -/
theorem stepSignal_hold (q : Params) (p m : ℚ) (r : Option ℚ)
    (hrec : ¬ (m * (1 + q.bullBuffer) < p)) :
    (stepSignal q 1 p (some m) r).1 = 1 ∧ (stepSignal q 1 p (some m) r).2 = 1 := by
  simp only [stepSignal]
  split_ifs <;> simp_all

theorem signalsAux_stay (q : Params) :
    ∀ (days : List (ℚ × Option ℚ × Option ℚ)) (j : ℕ),
      (∀ k, k ≤ j → ∃ p m r, days.get? k = some (p, some m, r)) →
      (∀ k, k ≤ j → ∀ p m r, days.get? k = some (p, some m, r) →
        ¬ (m * (1 + q.bullBuffer) < p)) →
      j < days.length →
      (signalsAux q 1 days).get? j = some 1 := by
  intro days
  induction days with
  | nil => intro j _ _ hj; simp at hj
  | cons d rest ih =>
    intro j hma hrec hj
    obtain ⟨p, m, r, h0⟩ := hma 0 (Nat.zero_le _)
    simp only [List.get?] at h0
    cases h0
    have hrec0 := hrec 0 (Nat.zero_le _) p m r rfl
    obtain ⟨he, hs⟩ := stepSignal_hold q p m r hrec0
    cases j with
    | zero => simp [signalsAux, he]
    | succ n =>
      simp only [signalsAux, List.get?, hs]
      exact ih n
        (fun k hk => by simpa using hma (k + 1) (by omega))
        (fun k hk p2 m2 r2 h2 => hrec (k + 1) (by omega) p2 m2 r2 (by simpa using h2))
        (by simpa using hj)

theorem zip3_get?_eq {α β γ : Type} :
    ∀ (a : List α) (b : List β) (c : List γ) (i : ℕ) (x : α) (y : β) (z : γ),
      (zip3 a b c).get? i = some (x, y, z) →
      a.get? i = some x ∧ b.get? i = some y ∧ c.get? i = some z := by
  intro a
  induction a with
  | nil => intro b c i x y z h; simp [zip3] at h
  | cons p ps ih =>
    intro b c i x y z h
    cases b with
    | nil => simp [zip3] at h
    | cons q qs =>
      cases c with
      | nil => simp [zip3] at h
      | cons r rs =>
        cases i with
        | zero =>
          simp only [zip3, List.get?, Option.some.injEq, Prod.mk.injEq] at h
          obtain ⟨h1, h2, h3⟩ := h
          simp [h1, h2, h3]
        | succ n =>
          simpa [zip3] using ih qs rs n x y z (by simpa [zip3] using h)

/-- Holds when `price > ma * (1 + bull_buffer)` on day `k` (with a defined moving
average), the recovery condition of line 120. -/
def recoversB (q : Params) (prices : List ℚ) (maW : ℕ) (k : ℕ) : Bool :=
  match (rollMean maW prices).getD k none with
  | some m => decide (m * (1 + q.bullBuffer) < prices.getD k 0)
  | none => false

/-- Claim C2: on every day whose moving average is defined and whose
indicator price is strictly below `movingAverage * (1 - bearBuffer)`, the
state machine emits DEFENSIVE (signal 1), regardless of the previous day's
tier and regardless of the momentum series (which is quantified
arbitrarily). -/
theorem trend_gate_emits_defensive (q : Params) (prices : List ℚ) (maW : ℕ)
    (rs : List (Option ℚ)) (i : ℕ) (m : ℚ)
    (hlen : rs.length = prices.length)
    (hma : (rollMean maW prices).get? i = some (some m))
    (hp : prices.getD i 0 < m * (1 - q.bearBuffer)) :
    (signalsWith q prices maW rs).get? i = some 1 := by
  have hi : i < prices.length := (rollMean_defined maW prices i m hma).1
  obtain ⟨p, hp'⟩ : ∃ p, prices.get? i = some p := ⟨_, List.get?_eq_get hi⟩
  obtain ⟨r, hr'⟩ : ∃ r, rs.get? i = some r := ⟨_, List.get?_eq_get (by omega)⟩
  have hd := zip3_get?_some prices (rollMean maW prices) rs i p (some m) r hp' hma hr'
  have hpd : prices.getD i 0 = p := by
    rw [List.getD_eq_get?, hp']; rfl
  exact signalsAux_bear q _ 2 i p m r hd (hpd ▸ hp)

theorem trend_gate_emits_defensive_witness :
    ([(4 : ℚ), 1] : List ℚ).length = ([none, none] : List (Option ℚ)).length ∧
    (rollMean 2 [(4 : ℚ), 1]).get? 1 = some (some (5 / 2)) ∧
    ([(4 : ℚ), 1].getD 1 0 < (5 / 2) * (1 - defaultParams.bearBuffer)) ∧
    (signalsWith defaultParams [4, 1] 2 [none, none]).get? 1 = some 1 :=
  ⟨rfl, by norm_num [rollMean, List.range_succ],
    by norm_num [defaultParams],
    trend_gate_emits_defensive defaultParams [4, 1] 2 [none, none] 1 (5 / 2) rfl
      (by norm_num [rollMean, List.range_succ]) (by norm_num [defaultParams])⟩

/-- Claim C5: for every price series, configuration and momentum series of
matching length, the signal timeline has the same length as the price
series, every entry is one of the three tiers 1/2/3, and every day whose
moving average is still undefined is emitted as 2 (NEUTRAL). -/
theorem signal_timeline_invariants (q : Params) (prices : List ℚ) (maW : ℕ)
    (rs : List (Option ℚ)) (hlen : rs.length = prices.length) :
    (signalsWith q prices maW rs).length = prices.length ∧
    (∀ s ∈ signalsWith q prices maW rs, s = 1 ∨ s = 2 ∨ s = 3) ∧
    (∀ i, (rollMean maW prices).get? i = some none →
      (signalsWith q prices maW rs).get? i = some 2) := by
  refine ⟨?_, ?_, ?_⟩
  · rw [signalsWith, signalsAux_length, zip3_length, rollMean_length, hlen]
    omega
  · exact signalsAux_mem q _ 2 (Or.inr (Or.inl rfl))
  · intro i hnone
    have hi : i < prices.length := by
      by_contra hge
      rw [List.get?_eq_none.2 (by rw [rollMean_length]; omega)] at hnone
      simp at hnone
    obtain ⟨p, hp'⟩ : ∃ p, prices.get? i = some p := ⟨_, List.get?_eq_get hi⟩
    obtain ⟨r, hr'⟩ : ∃ r, rs.get? i = some r := ⟨_, List.get?_eq_get (by omega)⟩
    exact signalsAux_dormant q _ 2 i p r
      (zip3_get?_some prices (rollMean maW prices) rs i p none r hp' hnone hr')

theorem signal_timeline_invariants_witness :
    ([none, some (60 : ℚ)] : List (Option ℚ)).length = ([(5 : ℚ), 6]).length ∧
    ((signalsWith defaultParams [5, 6] 1 [none, some 60]).length = 2 ∧
      (∀ s ∈ signalsWith defaultParams [5, 6] 1 [none, some 60],
        s = 1 ∨ s = 2 ∨ s = 3) ∧
      (∀ i, (rollMean 1 [(5 : ℚ), 6]).get? i = some none →
        (signalsWith defaultParams [5, 6] 1 [none, some 60]).get? i = some 2)) :=
  ⟨rfl, signal_timeline_invariants defaultParams [5, 6] 1 [none, some 60] rfl⟩

/-- Claim C3: once the machine emits DEFENSIVE on day `i`, it emits
DEFENSIVE on every later day `j` as long as no day `k` with `i < k ≤ j`
satisfies the recovery condition `price > movingAverage * (1 + bullBuffer)`;
the momentum series is again arbitrary, so the oscillator has no effect on
those days. -/
theorem defensive_persists_until_recovery (q : Params) (prices : List ℚ)
    (maW : ℕ) (rs : List (Option ℚ)) (i j : ℕ)
    (hlen : rs.length = prices.length)
    (hi : (signalsWith q prices maW rs).get? i = some 1)
    (hij : i < j) (hj : j < prices.length)
    (hnr : ∀ k, i < k → k ≤ j → recoversB q prices maW k = false) :
    (signalsWith q prices maW rs).get? j = some 1 := by
  have hdl : (zip3 prices (rollMean maW prices) rs).length = prices.length := by
    rw [zip3_length, rollMean_length, hlen]; omega
  have hip : i < prices.length := by omega
  obtain ⟨pi, hpi⟩ : ∃ p, prices.get? i = some p := ⟨_, List.get?_eq_get hip⟩
  obtain ⟨ri, hri⟩ : ∃ r, rs.get? i = some r := ⟨_, List.get?_eq_get (by omega)⟩
  obtain ⟨mi, hmi⟩ : ∃ mo, (rollMean maW prices).get? i = some mo :=
    ⟨_, List.get?_eq_get (by rw [rollMean_length]; omega)⟩
  cases mi with
  | none =>
    have h2 := signalsAux_dormant q (zip3 prices (rollMean maW prices) rs) 2 i pi ri
      (zip3_get?_some prices (rollMean maW prices) rs i pi none ri hpi hmi hri)
    rw [signalsWith] at hi
    rw [h2] at hi
    simp at hi
  | some m =>
    rw [signalsWith] at hi ⊢
    have hstate := signalsAux_one_state q _ 2 i hi
    have hsplit := signalsAux_split q (i + 1) (zip3 prices (rollMean maW prices) rs) 2
    have hlen1 : (signalsAux q 2 ((zip3 prices (rollMean maW prices) rs).take (i + 1))).length
        = i + 1 := by
      rw [signalsAux_length, List.length_take]
      omega
    rw [hsplit, List.get?_append_right (by omega), hlen1, hstate]
    apply signalsAux_stay
    · intro k hk
      have hk2 : i + 1 + k < prices.length := by omega
      obtain ⟨p2, hp2⟩ : ∃ p, prices.get? (i + 1 + k) = some p :=
        ⟨_, List.get?_eq_get hk2⟩
      obtain ⟨r2, hr2⟩ : ∃ r, rs.get? (i + 1 + k) = some r :=
        ⟨_, List.get?_eq_get (by omega)⟩
      obtain ⟨m2, hm2⟩ := rollMean_defined_ge maW prices i (i + 1 + k) m
        (by omega) hk2 hmi
      refine ⟨p2, m2, r2, ?_⟩
      rw [List.get?_drop]
      exact zip3_get?_some prices (rollMean maW prices) rs (i + 1 + k) p2 (some m2) r2
        hp2 hm2 hr2
    · intro k hk p2 m2 r2 h2
      rw [List.get?_drop] at h2
      obtain ⟨hp2, hm2, hr2⟩ := zip3_get?_eq prices (rollMean maW prices) rs
        (i + 1 + k) p2 (some m2) r2 h2
      have hnr2 := hnr (i + 1 + k) (by omega) (by omega)
      rw [recoversB] at hnr2
      have hgd : (rollMean maW prices).getD (i + 1 + k) none = some m2 := by
        rw [List.getD_eq_get?, hm2]; rfl
      have hpd : prices.getD (i + 1 + k) 0 = p2 := by
        rw [List.getD_eq_get?, hp2]; rfl
      rw [hgd, hpd] at hnr2
      simpa using hnr2
    · rw [List.length_drop]
      omega

theorem defensive_persists_until_recovery_witness :
    ([none, none, none] : List (Option ℚ)).length = ([(4 : ℚ), 1, 1]).length ∧
    (signalsWith defaultParams [4, 1, 1] 2 [none, none, none]).get? 1 = some 1 ∧
    (∀ k, 1 < k → k ≤ 2 → recoversB defaultParams [4, 1, 1] 2 k = false) ∧
    (signalsWith defaultParams [4, 1, 1] 2 [none, none, none]).get? 2 = some 1 := by
  have h1 : (signalsWith defaultParams [4, 1, 1] 2 [none, none, none]).get? 1
      = some 1 := by
    norm_num [signalsWith, signalsAux, zip3, rollMean, stepSignal, defaultParams,
      optGtB, optLtB, List.range_succ]
  have hnr : ∀ k, 1 < k → k ≤ 2 → recoversB defaultParams [4, 1, 1] 2 k = false := by
    intro k hk1 hk2
    have hk : k = 2 := by omega
    subst hk
    norm_num [recoversB, rollMean, List.range_succ, defaultParams]
  exact ⟨rfl, h1, hnr,
    defensive_persists_until_recovery defaultParams [4, 1, 1] 2 [none, none, none]
      1 2 rfl h1 (by omega) (by norm_num) hnr⟩

/-! ## Lemmas about the backtest engine -/

theorem posSeries_length (sig : List ℕ) : (posSeries sig).length = sig.length := by
  cases sig with
  | nil => rfl
  | cons s rest => simp [posSeries]

theorem posSeries_get?_zero (sig : List ℕ) (hne : sig ≠ []) :
    (posSeries sig).get? 0 = some 2 := by
  cases sig with
  | nil => exact absurd rfl hne
  | cons s rest => rfl

theorem posSeries_get?_succ (sig : List ℕ) (i : ℕ) (h : i + 1 < sig.length) :
    (posSeries sig).get? (i + 1) = sig.get? i := by
  cases sig with
  | nil => simp at h
  | cons s rest =>
    show (s :: rest).dropLast.get? i = (s :: rest).get? i
    rw [List.dropLast_eq_take, List.get?_take]
    simpa using h

theorem posSeries_mem (sig : List ℕ) : ∀ x ∈ posSeries sig, x = 2 ∨ x ∈ sig := by
  cases sig with
  | nil => intro x hx; simp [posSeries] at hx
  | cons s rest =>
    intro x hx
    simp only [posSeries, List.mem_cons] at hx
    rcases hx with hx | hx
    · exact Or.inl hx
    · exact Or.inr ((List.dropLast_sublist (s :: rest)).subset hx)

theorem grossReturn_get? :
    ∀ (pos : List ℕ) (r1 r2 r3 : List ℚ) (i : ℕ) (p : ℕ) (a b c : ℚ),
      pos.get? i = some p → r1.get? i = some a → r2.get? i = some b →
      r3.get? i = some c →
      (grossReturn pos r1 r2 r3).get? i =
        some (if p = 1 then a else if p = 2 then b else if p = 3 then c else 0) := by
  intro pos
  induction pos with
  | nil => intro r1 r2 r3 i p a b c h _ _ _; simp at h
  | cons q qs ih =>
    intro r1 r2 r3 i p a b c hp h1 h2 h3
    cases r1 with
    | nil => simp at h1
    | cons x xs =>
      cases r2 with
      | nil => simp at h2
      | cons y ys =>
        cases r3 with
        | nil => simp at h3
        | cons z zs =>
          cases i with
          | zero =>
            simp only [List.get?] at hp h1 h2 h3
            cases hp; cases h1; cases h2; cases h3
            rfl
          | succ n =>
            simpa [grossReturn] using ih xs ys zs n p a b c (by simpa using hp)
              (by simpa using h1) (by simpa using h2) (by simpa using h3)

/-- Claim C4: the position timeline is the signal timeline shifted forward by
one day with day 0 defaulted to 2 (NEUTRAL), and on every day the strategy's
gross (pre-cost) return is the day's return of the instrument selected by
the position: 1 → 1x series, 2 → 2x series, 3 → 3x series. -/
theorem position_timeline_and_instrument_map (q : Params) (prices : List ℚ)
    (maW : ℕ) (rs : List (Option ℚ)) (r1 r2 r3 : List ℚ)
    (hlen : rs.length = prices.length) (hr1 : r1.length = prices.length)
    (hr2 : r2.length = prices.length) (hr3 : r3.length = prices.length)
    (hne : prices ≠ []) :
    (posSeries (signalsWith q prices maW rs)).get? 0 = some 2 ∧
    (∀ i, 1 ≤ i → i < prices.length →
      (posSeries (signalsWith q prices maW rs)).get? i =
        (signalsWith q prices maW rs).get? (i - 1)) ∧
    (∀ i, i < prices.length → ∃ p,
      (posSeries (signalsWith q prices maW rs)).get? i = some p ∧
      (p = 1 ∨ p = 2 ∨ p = 3) ∧
      (grossReturn (posSeries (signalsWith q prices maW rs)) r1 r2 r3).get? i =
        some (if p = 1 then r1.getD i 0 else if p = 2 then r2.getD i 0
          else r3.getD i 0)) := by
  have hsl : (signalsWith q prices maW rs).length = prices.length := by
    rw [signalsWith, signalsAux_length, zip3_length, rollMean_length, hlen]
    omega
  have hsne : signalsWith q prices maW rs ≠ [] := by
    intro hempty
    rw [hempty] at hsl
    exact hne (List.length_eq_zero.1 hsl.symm)
  refine ⟨posSeries_get?_zero _ hsne, ?_, ?_⟩
  · intro i h1 hi
    obtain ⟨n, rfl⟩ := Nat.exists_eq_add_of_le h1
    rw [Nat.add_comm] at *
    simpa using posSeries_get?_succ _ n (by omega)
  · intro i hi
    have hpl : i < (posSeries (signalsWith q prices maW rs)).length := by
      rw [posSeries_length, hsl]; exact hi
    obtain ⟨p, hp⟩ : ∃ p, (posSeries (signalsWith q prices maW rs)).get? i = some p :=
      ⟨_, List.get?_eq_get hpl⟩
    obtain ⟨a, ha⟩ : ∃ a, r1.get? i = some a := ⟨_, List.get?_eq_get (by omega)⟩
    obtain ⟨b, hb⟩ : ∃ b, r2.get? i = some b := ⟨_, List.get?_eq_get (by omega)⟩
    obtain ⟨c, hc⟩ : ∃ c, r3.get? i = some c := ⟨_, List.get?_eq_get (by omega)⟩
    have hmem : p = 1 ∨ p = 2 ∨ p = 3 := by
      rcases posSeries_mem _ p (List.get?_mem hp) with h | h
      · exact Or.inr (Or.inl h)
      · exact signalsAux_mem q _ 2 (Or.inr (Or.inl rfl)) p h
    have hg := grossReturn_get? _ r1 r2 r3 i p a b c hp ha hb hc
    refine ⟨p, hp, hmem, ?_⟩
    have hda : r1.getD i 0 = a := by rw [List.getD_eq_get?, ha]; rfl
    have hdb : r2.getD i 0 = b := by rw [List.getD_eq_get?, hb]; rfl
    have hdc : r3.getD i 0 = c := by rw [List.getD_eq_get?, hc]; rfl
    rw [hda, hdb, hdc]
    rcases hmem with h | h | h <;> subst h <;> simpa using hg

theorem position_timeline_and_instrument_map_witness :
    ([none, some (60 : ℚ)] : List (Option ℚ)).length = ([(5 : ℚ), 6]).length ∧
    (((posSeries (signalsWith defaultParams [5, 6] 1 [none, some 60])).get? 0
        = some 2) ∧
      (∀ i, 1 ≤ i → i < ([(5 : ℚ), 6]).length →
        (posSeries (signalsWith defaultParams [5, 6] 1 [none, some 60])).get? i =
          (signalsWith defaultParams [5, 6] 1 [none, some 60]).get? (i - 1)) ∧
      (∀ i, i < ([(5 : ℚ), 6]).length → ∃ p,
        (posSeries (signalsWith defaultParams [5, 6] 1 [none, some 60])).get? i
          = some p ∧
        (p = 1 ∨ p = 2 ∨ p = 3) ∧
        (grossReturn (posSeries (signalsWith defaultParams [5, 6] 1 [none, some 60]))
            [1, 2] [3, 4] [5, 6]).get? i =
          some (if p = 1 then ([(1 : ℚ), 2]).getD i 0
            else if p = 2 then ([(3 : ℚ), 4]).getD i 0
            else ([(5 : ℚ), 6]).getD i 0))) :=
  ⟨rfl, position_timeline_and_instrument_map defaultParams [5, 6] 1 [none, some 60]
    [1, 2] [3, 4] [5, 6] rfl rfl rfl rfl (by simp)⟩

theorem length_filter_map_succ (p : ℕ → Bool) :
    ∀ (l : List ℕ),
      ((l.map Nat.succ).filter p).length = (l.filter (fun j => p (j + 1))).length := by
  intro l
  induction l with
  | nil => rfl
  | cons a t ih =>
    by_cases h : p (a + 1) = true
    · simp only [List.map_cons, List.filter_cons]
      rw [if_pos (by simpa using h), if_pos (by simpa using h)]
      simpa using ih
    · simp only [List.map_cons, List.filter_cons]
      rw [if_neg (by simpa using h), if_neg (by simpa using h)]
      exact ih

/-- The spec-worded switch count over indices equals the pairwise mismatch
count that `trades` computes on the shifted tail. -/
theorem switch_bridge :
    ∀ (l : List ℕ) (p : ℕ),
      specSwitchCount (p :: l) =
        (List.zipWith (fun cur prev => decide (cur ≠ prev)) l (p :: l)).count true := by
  intro l
  induction l with
  | nil =>
    intro p
    simp [specSwitchCount, List.range_succ]
  | cons x xs ih =>
    intro p
    have hcount : (List.zipWith (fun cur prev => decide (cur ≠ prev)) (x :: xs)
        (p :: x :: xs)).count true =
        (List.zipWith (fun cur prev => decide (cur ≠ prev)) xs (x :: xs)).count true +
          (if x = p then 0 else 1) := by
      simp only [List.zipWith_cons_cons, List.count_cons]
      by_cases hxp : x = p <;> simp [hxp]
    rw [hcount, ← ih x]
    -- Now expand the spec-worded count on both sides.
    have expand : ∀ (h : ℕ) (t : List ℕ),
        specSwitchCount (h :: t) =
          ((List.range t.length).filter
            (fun j => decide (t.getD j 0 ≠ (h :: t).getD j 0))).length := by
      intro h t
      rw [specSwitchCount]
      simp only [List.length_cons, List.range_succ_eq_map, List.filter_cons]
      rw [if_neg (by simp)]
      rw [length_filter_map_succ]
      congr 1
      apply List.filter_congr
      intro j hj
      simp [List.getD_cons_succ]
    rw [expand p (x :: xs), expand x xs]
    -- Split the range on the left.
    have hx : ∀ j ∈ List.range xs.length,
        (fun j => decide ((x :: xs).getD (j + 1) 0 ≠ (p :: x :: xs).getD (j + 1) 0)) j =
          (fun j => decide (xs.getD j 0 ≠ (x :: xs).getD j 0)) j := by
      intro j hj
      simp [List.getD_cons_succ]
    simp only [List.length_cons, List.range_succ_eq_map, List.filter_cons]
    by_cases hxp : x = p
    · rw [if_neg (by simp [hxp])]
      rw [length_filter_map_succ, List.filter_congr hx]
      simp [hxp]
    · rw [if_pos (by simp [hxp])]
      simp only [List.length_cons]
      rw [length_filter_map_succ, List.filter_congr hx]
      simp [hxp, Nat.add_comm]

/-- Counterexample to claim C1 as stated: on the position timeline
`posSeries [2, 2] = [2, 2]` no entry differs from its predecessor, so the
claim predicts zero charged days and no charge on day 0 — but the engine
charges exactly one day, namely day 0 (the NaN produced by
`pos_series.shift(1)` compares as "different" on the first day). -/
theorem transaction_cost_day0_counterexample :
    chargedCount (posSeries [2, 2]) = 1 ∧
    specSwitchCount (posSeries [2, 2]) = 0 ∧
    (trades (posSeries [2, 2])).getD 0 false = true := by decide

/-- Claim C1 (amended): the transaction cost is subtracted on day `i` exactly
when `i = 0` or `PositionTimeline[i] ≠ PositionTimeline[i-1]`; day 0 is
always charged, and the total number of charged days is the number of
switch days plus one. -/
theorem transaction_cost_charge_rule (pos : List ℕ) (gross : List ℚ) (cost : ℚ)
    (hne : pos ≠ []) :
    (trades pos).length = pos.length ∧
    (trades pos).getD 0 false = true ∧
    (∀ i, 1 ≤ i → i < pos.length →
      (trades pos).getD i false = decide (pos.getD i 0 ≠ pos.getD (i - 1) 0)) ∧
    chargedCount pos = specSwitchCount pos + 1 ∧
    (∀ i, i < pos.length → i < gross.length →
      (dailyNetReturn gross pos cost).get? i =
        some (gross.getD i 0 - if (trades pos).getD i false then cost else 0)) := by
  obtain ⟨p, rest, rfl⟩ : ∃ p rest, pos = p :: rest := by
    cases pos with
    | nil => exact absurd rfl hne
    | cons p rest => exact ⟨p, rest, rfl⟩
  have hlen : (trades (p :: rest)).length = (p :: rest).length := by
    simp [trades]
  have htrade : ∀ i, 1 ≤ i → i < (p :: rest).length →
      (trades (p :: rest)).getD i false =
        decide ((p :: rest).getD i 0 ≠ (p :: rest).getD (i - 1) 0) := by
    intro i h1 hi
    obtain ⟨j, rfl⟩ : ∃ j, i = j + 1 := ⟨i - 1, by omega⟩
    obtain ⟨a, ha⟩ : ∃ a, rest.get? j = some a :=
      ⟨_, List.get?_eq_get (by simpa using hi)⟩
    obtain ⟨b, hb⟩ : ∃ b, (p :: rest).get? j = some b :=
      ⟨_, List.get?_eq_get (by simp only [List.length_cons] at hi ⊢; omega)⟩
    have hz := get?_zipWith_some (fun cur prev => decide (cur ≠ prev))
      rest (p :: rest) j a b ha hb
    have e1 : (trades (p :: rest)).getD (j + 1) false = decide (a ≠ b) := by
      show ((List.zipWith (fun cur prev => decide (cur ≠ prev)) rest (p :: rest)).getD
        j false) = decide (a ≠ b)
      rw [List.getD_eq_get?, hz]; rfl
    have e2 : (p :: rest).getD (j + 1) 0 = a := by
      rw [List.getD_cons_succ, List.getD_eq_get?, ha]; rfl
    have e3 : (p :: rest).getD (j + 1 - 1) 0 = b := by
      show (p :: rest).getD j 0 = b
      rw [List.getD_eq_get?, hb]; rfl
    rw [e1, e2, e3]
  refine ⟨hlen, rfl, htrade, ?_, ?_⟩
  · show (trades (p :: rest)).count true = specSwitchCount (p :: rest) + 1
    rw [switch_bridge rest p]
    simp [trades, List.count_cons, Nat.add_comm]
  · intro i hi hg
    obtain ⟨g, hgv⟩ : ∃ g, gross.get? i = some g := ⟨_, List.get?_eq_get hg⟩
    obtain ⟨t, htv⟩ : ∃ t, (trades (p :: rest)).get? i = some t :=
      ⟨_, List.get?_eq_get (by rw [hlen]; exact hi)⟩
    have hz := get?_zipWith_some (fun g t => g - (if t then cost else 0))
      gross (trades (p :: rest)) i g t hgv htv
    rw [dailyNetReturn, hz]
    have e1 : gross.getD i 0 = g := by rw [List.getD_eq_get?, hgv]; rfl
    have e2 : (trades (p :: rest)).getD i false = t := by
      rw [List.getD_eq_get?, htv]; rfl
    rw [e1, e2]

theorem transaction_cost_charge_rule_witness :
    ([2, 3, 3] : List ℕ) ≠ [] ∧
    ((trades [2, 3, 3]).length = ([2, 3, 3] : List ℕ).length ∧
      (trades [2, 3, 3]).getD 0 false = true ∧
      (∀ i, 1 ≤ i → i < ([2, 3, 3] : List ℕ).length →
        (trades [2, 3, 3]).getD i false =
          decide (([2, 3, 3] : List ℕ).getD i 0 ≠ ([2, 3, 3] : List ℕ).getD (i - 1) 0)) ∧
      chargedCount [2, 3, 3] = specSwitchCount [2, 3, 3] + 1 ∧
      (∀ i, i < ([2, 3, 3] : List ℕ).length → i < ([(1 : ℚ), 2, 3]).length →
        (dailyNetReturn [1, 2, 3] [2, 3, 3] (1 / 1000)).get? i =
          some (([(1 : ℚ), 2, 3]).getD i 0 -
            if (trades [2, 3, 3]).getD i false then 1 / 1000 else 0))) :=
  ⟨by simp, transaction_cost_charge_rule [2, 3, 3] [1, 2, 3] (1 / 1000) (by simp)⟩

/-! ## Lemmas about the period-return helper -/

theorem not_pred_of_lt_findIdx {α : Type} (p : α → Bool) :
    ∀ (l : List α) (j : ℕ) (x : α), j < l.findIdx p → l.get? j = some x →
      p x = false := by
  intro l
  induction l with
  | nil => intro j x h hx; simp at hx
  | cons a t ih =>
    intro j x h hx
    rw [List.findIdx_cons] at h
    by_cases hpa : p a
    · simp [hpa] at h
    · cases j with
      | zero =>
        simp only [List.get?, Option.some.injEq] at hx
        subst hx
        simpa using hpa
      | succ n =>
        simp only [hpa, cond_false] at h
        exact ih n x (by omega) (by simpa using hx)

theorem getLastD_mem {α : Type} [Inhabited α] (l : List α) (hne : l ≠ []) :
    l.getLastD default ∈ l := by
  rw [List.getLastD_eq_getLast?, List.getLast?_eq_get?]
  have hl : l.length - 1 < l.length := by
    cases l with
    | nil => exact absurd rfl hne
    | cons a t => simp
  rw [List.get?_eq_get hl]
  exact List.get_mem l _ hl

theorem getLastD_eq_getD_last {α : Type} [Inhabited α] (l : List α) :
    l.getLastD default = l.getD (l.length - 1) default := by
  rw [List.getLastD_eq_getLast?, List.getLast?_eq_get?, List.getD_eq_get?]

/-- Claim C6: `get_period_return` returns 0 when the series has fewer than
`daysLookback` entries; otherwise the result is
`lastValue / value[i] - 1` where `i` is the first index whose date is on or
after `lastDate - daysLookback` (the `searchsorted` contract on the sorted
date index), and such an index always exists, so the final clamp never
fires. -/
theorem period_return_contract (dates : List ℤ) (vals : List ℚ) (lb : ℕ)
    (hlen : dates.length = vals.length) (hne : vals ≠ [])
    (hsorted : dates.Sorted (· ≤ ·)) :
    (vals.length < lb → get_period_return dates vals lb = 0) ∧
    (lb ≤ vals.length → ∃ i, i < dates.length ∧
      (∀ j, j < i → dates.getD j 0 < dates.getLastD 0 - (lb : ℤ)) ∧
      dates.getLastD 0 - (lb : ℤ) ≤ dates.getD i 0 ∧
      get_period_return dates vals lb = vals.getLastD 0 / vals.getD i 0 - 1) := by
  constructor
  · intro h
    rw [get_period_return, if_pos h]
  · intro h
    have hdne : dates ≠ [] := by
      intro h0
      rw [h0] at hlen
      exact hne (List.length_eq_zero.1 hlen.symm)
    have hlast : (0 : ℤ) + dates.getLastD 0 ∈ dates := by
      simpa using getLastD_mem dates hdne
    have hex : ∃ x ∈ dates,
        (fun d => decide (dates.getLastD 0 - (lb : ℤ) ≤ d)) x = true := by
      refine ⟨dates.getLastD 0, by simpa using hlast, ?_⟩
      simp only [decide_eq_true_eq]
      omega
    have hfi := List.findIdx_lt_length_of_exists hex
    refine ⟨dates.findIdx (fun d => decide (dates.getLastD 0 - (lb : ℤ) ≤ d)),
      hfi, ?_, ?_, ?_⟩
    · intro j hj
      have hjl : j < dates.length := lt_trans hj hfi
      obtain ⟨x, hx⟩ : ∃ x, dates.get? j = some x := ⟨_, List.get?_eq_get hjl⟩
      have hnp := not_pred_of_lt_findIdx _ dates j x hj hx
      simp only [decide_eq_false_iff_not, not_le] at hnp
      have hgd : dates.getD j 0 = x := by rw [List.getD_eq_get?, hx]; rfl
      rw [hgd]
      exact hnp
    · have hp := @List.findIdx_get _ _ _ hfi
      simp only [decide_eq_true_eq] at hp
      have : dates.getD (dates.findIdx
          (fun d => decide (dates.getLastD 0 - (lb : ℤ) ≤ d))) 0 =
          dates.get ⟨_, hfi⟩ := by
        rw [List.getD_eq_get?, List.get?_eq_get hfi]; rfl
      rw [this]
      exact hp
    · rw [get_period_return, if_neg (by omega)]
      simp only []
      rw [if_neg (by omega)]

theorem period_return_contract_witness :
    ([0, 1, 2, 3] : List ℤ).length = ([(1 : ℚ), 21 / 20, 11 / 10, 121 / 100]).length ∧
    ([(1 : ℚ), 21 / 20, 11 / 10, 121 / 100] : List ℚ) ≠ [] ∧
    ([0, 1, 2, 3] : List ℤ).Sorted (· ≤ ·) ∧
    ((([(1 : ℚ), 21 / 20, 11 / 10, 121 / 100]).length < 5 →
        get_period_return [0, 1, 2, 3] [1, 21 / 20, 11 / 10, 121 / 100] 5 = 0) ∧
      (5 ≤ ([(1 : ℚ), 21 / 20, 11 / 10, 121 / 100]).length → ∃ i,
        i < ([0, 1, 2, 3] : List ℤ).length ∧
        (∀ j, j < i → ([0, 1, 2, 3] : List ℤ).getD j 0 <
          ([0, 1, 2, 3] : List ℤ).getLastD 0 - (5 : ℤ)) ∧
        ([0, 1, 2, 3] : List ℤ).getLastD 0 - (5 : ℤ) ≤
          ([0, 1, 2, 3] : List ℤ).getD i 0 ∧
        get_period_return [0, 1, 2, 3] [1, 21 / 20, 11 / 10, 121 / 100] 5 =
          ([(1 : ℚ), 21 / 20, 11 / 10, 121 / 100]).getLastD 0 /
            ([(1 : ℚ), 21 / 20, 11 / 10, 121 / 100]).getD i 0 - 1)) :=
  ⟨rfl, by simp, by decide,
    period_return_contract [0, 1, 2, 3] [1, 21 / 20, 11 / 10, 121 / 100] 5 rfl
      (by simp) (by decide)⟩

/-! ## Lemmas about the holding summarizer -/

theorem scanBack_eq (last : ℕ) (dates : List ℤ) (n : ℕ) :
    ∀ (l : List ℕ) (cnt : ℕ),
      scanBack last dates n l cnt =
        (cnt + (l.takeWhile (fun s => decide (s = last))).length,
         (l.drop (l.takeWhile (fun s => decide (s = last))).length).head?,
         if (l.takeWhile (fun s => decide (s = last))).length = l.length then none
         else some (dates.getD
           (n - 1 - (cnt + (l.takeWhile (fun s => decide (s = last))).length)) 0)) := by
  intro l
  induction l with
  | nil => intro cnt; simp [scanBack]
  | cons s rest ih =>
    intro cnt
    by_cases hs : s = last
    · rw [scanBack, if_pos hs, ih (cnt + 1),
        List.takeWhile_cons_of_pos (by simp [hs])]
      simp only [List.length_cons, List.drop_succ_cons]
      refine congrArg₂ Prod.mk (by omega) (congrArg₂ Prod.mk rfl ?_)
      by_cases hc : (rest.takeWhile (fun s => decide (s = last))).length = rest.length
      · rw [if_pos hc, if_pos (by omega)]
      · rw [if_neg hc, if_neg (by omega)]
        have harith : n - 1 - (cnt + 1 + (rest.takeWhile
            (fun s => decide (s = last))).length) =
            n - 1 - (cnt + ((rest.takeWhile (fun s => decide (s = last))).length + 1)) := by
          omega
        rw [harith]
    · rw [scanBack, if_neg hs, List.takeWhile_cons_of_neg (by simp [hs])]
      simp

theorem reverse_eq_getLastD_cons (sig : List ℕ) (hne : sig ≠ []) :
    sig.reverse = sig.getLastD 0 :: sig.dropLast.reverse := by
  conv_lhs => rw [← List.dropLast_append_getLast hne]
  rw [List.reverse_append]
  simp [List.getLastD_eq_getLast?, List.getLast?_eq_getLast sig hne]

/-- Claim C7: the holding summary equals its spec-worded description —
`currentTier` is the last day's tier, `daysHeld` the length of the maximal
trailing run of that tier (hence at least 1), `previousTier` the tier of the
first differing earlier day and `transitionDate` the date of the day after
it, both `none` when the whole history is one run. -/
theorem holding_summary_contract (sig : List ℕ) (dates : List ℤ) (hne : sig ≠ []) :
    summarizeHolding sig dates =
      ⟨sig.getLastD 0, specDaysHeld sig, specPrevTier sig,
        specTransitionDate sig dates⟩ ∧
    1 ≤ (summarizeHolding sig dates).daysHeld := by
  have hrev := reverse_eq_getLastD_cons sig hne
  have hlen1 : 1 ≤ sig.length := List.length_pos.2 hne
  have hblen : sig.dropLast.reverse.length = sig.length - 1 := by
    simp [List.length_dropLast]
  have htw : specDaysHeld sig =
      (sig.dropLast.reverse.takeWhile (fun s => decide (s = sig.getLastD 0))).length
        + 1 := by
    rw [specDaysHeld, hrev, List.takeWhile_cons_of_pos (by simp)]
    simp
  have hscan := scanBack_eq (sig.getLastD 0) dates sig.length sig.dropLast.reverse 0
  have hsum : summarizeHolding sig dates =
      ⟨sig.getLastD 0,
        (sig.dropLast.reverse.takeWhile
          (fun s => decide (s = sig.getLastD 0))).length + 1,
        (sig.dropLast.reverse.drop
          (sig.dropLast.reverse.takeWhile
            (fun s => decide (s = sig.getLastD 0))).length).head?,
        if (sig.dropLast.reverse.takeWhile
            (fun s => decide (s = sig.getLastD 0))).length =
            sig.dropLast.reverse.length then none
        else some (dates.getD (sig.length - 1 -
          (sig.dropLast.reverse.takeWhile
            (fun s => decide (s = sig.getLastD 0))).length) 0)⟩ := by
    rw [summarizeHolding, hscan]
    dsimp only
    simp only [Nat.zero_add]
  constructor
  · rw [hsum]
    have h3 : (sig.dropLast.reverse.drop
        (sig.dropLast.reverse.takeWhile
          (fun s => decide (s = sig.getLastD 0))).length).head? =
        specPrevTier sig := by
      rw [specPrevTier, hrev, htw, List.drop_succ_cons]
    have h4 : (if (sig.dropLast.reverse.takeWhile
          (fun s => decide (s = sig.getLastD 0))).length =
          sig.dropLast.reverse.length then none
        else some ((dates.getD (sig.length - 1 -
          (sig.dropLast.reverse.takeWhile
            (fun s => decide (s = sig.getLastD 0))).length) 0 : ℤ))) =
        specTransitionDate sig dates := by
      rw [specTransitionDate, htw]
      by_cases hc : (sig.dropLast.reverse.takeWhile
          (fun s => decide (s = sig.getLastD 0))).length = sig.dropLast.reverse.length
      · rw [if_pos hc, if_pos (by omega)]
      · rw [if_neg hc, if_neg (by omega)]
        have harith : sig.length - 1 -
            (sig.dropLast.reverse.takeWhile
              (fun s => decide (s = sig.getLastD 0))).length =
            sig.length - ((sig.dropLast.reverse.takeWhile
              (fun s => decide (s = sig.getLastD 0))).length + 1) := by
          omega
        rw [harith]
    rw [h3, h4, ← htw]
  · rw [hsum]
    simp

theorem holding_summary_contract_witness :
    ([2, 2, 2, 2, 2, 2, 2, 2, 2, 2, 1, 1, 1, 1, 1] : List ℕ) ≠ [] ∧
    summarizeHolding [2, 2, 2, 2, 2, 2, 2, 2, 2, 2, 1, 1, 1, 1, 1]
      [0, 1, 2, 3, 4, 5, 6, 7, 8, 9, 10, 11, 12, 13, 14] =
      ⟨1, 5, some 2, some 10⟩ :=
  ⟨by simp,
    ((holding_summary_contract [2, 2, 2, 2, 2, 2, 2, 2, 2, 2, 1, 1, 1, 1, 1]
      [0, 1, 2, 3, 4, 5, 6, 7, 8, 9, 10, 11, 12, 13, 14] (by simp)).1).trans
      (by decide)⟩

/-! ## Lemmas about the momentum oscillator -/

theorem realDeltas_length (x : ℚ) (xs : List ℚ) :
    (realDeltas (x :: xs)).length = xs.length := by
  simp [realDeltas]

theorem gainsList_length (p : List ℚ) : (gainsList p).length = p.length := by
  cases p with
  | nil => rfl
  | cons x xs => simp [gainsList, deltasOpt, realDeltas]

theorem lossList_length (p : List ℚ) : (lossList p).length = p.length := by
  cases p with
  | nil => rfl
  | cons x xs => simp [lossList, deltasOpt, realDeltas]

theorem gainsList_decomp (x : ℚ) (xs : List ℚ) :
    gainsList (x :: xs) = 0 :: (realDeltas (x :: xs)).map posPart := by
  rw [gainsList, deltasOpt]
  simp only [List.map_cons, List.map_map]
  rfl

theorem lossList_decomp (x : ℚ) (xs : List ℚ) :
    lossList (x :: xs) = 0 :: (realDeltas (x :: xs)).map negPart := by
  rw [lossList, deltasOpt]
  simp only [List.map_cons, List.map_map]
  rfl

theorem rsiSeries_get?_undefined (p : List ℚ) (w i : ℕ)
    (hi : i < p.length) (hwi : i + 1 < w) :
    (rsiSeries w p).get? i = some none := by
  have hg := rollMean_get? w (gainsList p) i (by rw [gainsList_length]; exact hi)
  rw [if_neg (by omega)] at hg
  have hl := rollMean_get? w (lossList p) i (by rw [lossList_length]; exact hi)
  rw [if_neg (by omega)] at hl
  have hlr : (lossReplaced w p).get? i = some none := by
    rw [lossReplaced, List.get?_map, hl]; rfl
  have hrs : (rsSeries w p).get? i = some none := by
    rw [rsSeries]
    exact get?_zipWith_some _ _ _ i none none hg hlr
  rw [rsiSeries, List.get?_map, hrs]
  rfl

theorem rsiSeries_get?_defined (p : List ℚ) (w i : ℕ)
    (hi : i < p.length) (hwi : w ≤ i + 1) :
    (rsiSeries w p).get? i = some (some (100 - 100 /
      (1 + ((((gainsList p).drop (i + 1 - w)).take w).sum / (w : ℚ)) /
        (if (((lossList p).drop (i + 1 - w)).take w).sum / (w : ℚ) = 0 then epsilon
         else (((lossList p).drop (i + 1 - w)).take w).sum / (w : ℚ))))) := by
  have hg := rollMean_get? w (gainsList p) i (by rw [gainsList_length]; exact hi)
  rw [if_pos hwi] at hg
  have hl := rollMean_get? w (lossList p) i (by rw [lossList_length]; exact hi)
  rw [if_pos hwi] at hl
  have hlr : (lossReplaced w p).get? i =
      some (some (if (((lossList p).drop (i + 1 - w)).take w).sum / (w : ℚ) = 0
        then epsilon else (((lossList p).drop (i + 1 - w)).take w).sum / (w : ℚ))) := by
    rw [lossReplaced, List.get?_map, hl]; rfl
  have hrs : (rsSeries w p).get? i =
      some (some (((((gainsList p).drop (i + 1 - w)).take w).sum / (w : ℚ)) /
        (if (((lossList p).drop (i + 1 - w)).take w).sum / (w : ℚ) = 0 then epsilon
         else (((lossList p).drop (i + 1 - w)).take w).sum / (w : ℚ)))) := by
    rw [rsSeries]
    exact get?_zipWith_some _ _ _ i _ _ hg hlr
  rw [rsiSeries, List.get?_map, hrs]
  rfl

/-- Beyond the boundary day, the code's rolling window of `where`-masked
deltas coincides with the spec's window of positive deltas: the padded zero
at index 0 is dropped. -/
theorem codeGain_eq_spec (p : List ℚ) (w i : ℕ) (hw : w ≤ i) (hi : i < p.length) :
    (((gainsList p).drop (i + 1 - w)).take w).sum / (w : ℚ) = specAvgGain p w i := by
  obtain ⟨x, xs, rfl⟩ : ∃ x xs, p = x :: xs := by
    cases p with
    | nil => simp at hi
    | cons x xs => exact ⟨x, xs, rfl⟩
  rw [gainsList_decomp]
  have harith : i + 1 - w = (i - w) + 1 := by omega
  rw [harith, List.drop_succ_cons]
  rfl

theorem codeLoss_eq_spec (p : List ℚ) (w i : ℕ) (hw : w ≤ i) (hi : i < p.length) :
    (((lossList p).drop (i + 1 - w)).take w).sum / (w : ℚ) = specAvgLoss p w i := by
  obtain ⟨x, xs, rfl⟩ : ∃ x xs, p = x :: xs := by
    cases p with
    | nil => simp at hi
    | cons x xs => exact ⟨x, xs, rfl⟩
  rw [lossList_decomp]
  have harith : i + 1 - w = (i - w) + 1 := by omega
  rw [harith, List.drop_succ_cons]
  rfl

/-- Counterexample to claim C8 as stated: the oscillator is already defined
on day `rsiWindow - 1` (here `rsiWindow = 2`, day index 1, i.e. within the
first `rsiWindow` days of the series), because `delta.where(delta > 0, 0)`
turns the leading NaN of `diff()` into a 0, so the first rolling window is
full one day early. -/
theorem rsi_defined_within_first_window :
    (rsiSeries 2 [1, 2]).get? 1 = some (some (100 - 100 / 5000000001)) := by
  norm_num [rsiSeries, rsSeries, lossReplaced, rollMean, gainsList, lossList,
    deltasOpt, realDeltas, posPart, negPart, epsilon, List.range_succ]

/-- Claim C8 (amended): the oscillator is undefined only for the first
`rsiWindow - 1` days; on day `rsiWindow - 1` it is already defined (its
window is padded with a zero standing for the missing day-0 delta); and from
day `rsiWindow` on it equals `100 - 100/(1+r)` where `r` is the average of
positive deltas over the trailing window divided by the average magnitude of
negative deltas (with the epsilon substitution for a zero denominator). -/
theorem rsi_series_contract (p : List ℚ) (w i : ℕ) (hw : 1 ≤ w)
    (hi : i < p.length) :
    (i + 1 < w → (rsiSeries w p).get? i = some none) ∧
    (i = w - 1 → ∃ v, (rsiSeries w p).get? i = some (some v)) ∧
    (w ≤ i → (rsiSeries w p).get? i = some (some (specRsi p w i))) := by
  refine ⟨fun hwi => rsiSeries_get?_undefined p w i hi hwi, ?_, ?_⟩
  · intro hb
    exact ⟨_, rsiSeries_get?_defined p w i hi (by omega)⟩
  · intro hwi
    have h := rsiSeries_get?_defined p w i hi (by omega)
    rw [codeGain_eq_spec p w i hwi hi, codeLoss_eq_spec p w i hwi hi] at h
    exact h

theorem rsi_series_contract_witness :
    (1 ≤ 2 ∧ 3 < ([(1 : ℚ), 2, 3, 4]).length) ∧
    ((3 + 1 < 2 → (rsiSeries 2 [1, 2, 3, 4]).get? 3 = some none) ∧
      (3 = 2 - 1 → ∃ v, (rsiSeries 2 [1, 2, 3, 4]).get? 3 = some (some v)) ∧
      (2 ≤ 3 → (rsiSeries 2 [1, 2, 3, 4]).get? 3 =
        some (some (specRsi [1, 2, 3, 4] 2 3)))) :=
  ⟨⟨by norm_num, by norm_num⟩,
    rsi_series_contract [1, 2, 3, 4] 2 3 (by norm_num) (by norm_num)⟩

/-- Counterexample to claim C9 as stated: a window with no negative deltas
whose positive deltas are also all zero (a flat price stretch) produces an
oscillator value of exactly 0, not a value near 100 — the epsilon
substitution hits a zero numerator as well. -/
theorem rsi_flat_window_value_zero :
    specAvgLoss [1, 1, 1] 2 2 = 0 ∧ specAvgGain [1, 1, 1] 2 2 = 0 ∧
    (rsiSeries 2 [1, 1, 1]).get? 2 = some (some 0) := by
  refine ⟨by norm_num [specAvgLoss, realDeltas, negPart],
    by norm_num [specAvgGain, realDeltas, posPart], ?_⟩
  norm_num [rsiSeries, rsSeries, lossReplaced, rollMean, gainsList, lossList,
    deltasOpt, realDeltas, posPart, negPart, epsilon, List.range_succ]

/-- Claim C9 (amended): when the trailing window has no negative deltas the
denominator is replaced by the positive constant `epsilon`, so the division
is always well defined and the value is `100 - 100/(1 + avgGain/epsilon)`;
this is near 100 (above 99) whenever the window also contains positive
movement (`avgGain ≥ 1/100`), but it is 0 for a fully flat window. -/
theorem rsi_zero_loss_epsilon (p : List ℚ) (w i : ℕ) (hw : 1 ≤ w)
    (hwi : w ≤ i) (hi : i < p.length) (hzero : specAvgLoss p w i = 0) :
    (rsiSeries w p).get? i =
      some (some (100 - 100 / (1 + specAvgGain p w i / epsilon))) ∧
    (1 / 100 ≤ specAvgGain p w i →
      99 < 100 - 100 / (1 + specAvgGain p w i / epsilon)) := by
  constructor
  · have h := rsiSeries_get?_defined p w i hi (by omega)
    rw [codeGain_eq_spec p w i hwi hi, codeLoss_eq_spec p w i hwi hi, hzero,
      if_pos rfl] at h
    exact h
  · intro hga
    have hge : (100000000 : ℚ) ≤ specAvgGain p w i / epsilon := by
      rw [epsilon, div_div_eq_mul_div, div_one]
      nlinarith
    have hb : 100 / (1 + specAvgGain p w i / epsilon) ≤ 100 / 100000001 :=
      div_le_div_of_le_left (by norm_num) (by norm_num) (by linarith)
    have hc : (100 : ℚ) / 100000001 < 1 := by norm_num
    linarith

theorem rsi_zero_loss_epsilon_witness :
    (1 ≤ 1 ∧ 1 ≤ 1 ∧ 1 < ([(1 : ℚ), 2, 2]).length ∧
      specAvgLoss [1, 2, 2] 1 1 = 0) ∧
    ((rsiSeries 1 [1, 2, 2]).get? 1 =
        some (some (100 - 100 / (1 + specAvgGain [1, 2, 2] 1 1 / epsilon))) ∧
      (1 / 100 ≤ specAvgGain [1, 2, 2] 1 1 →
        99 < 100 - 100 / (1 + specAvgGain [1, 2, 2] 1 1 / epsilon))) :=
  ⟨⟨le_refl 1, le_refl 1, by norm_num,
      by norm_num [specAvgLoss, realDeltas, negPart]⟩,
    rsi_zero_loss_epsilon [1, 2, 2] 1 1 (le_refl 1) (le_refl 1) (by norm_num)
      (by norm_num [specAvgLoss, realDeltas, negPart])⟩

/-! ## The single-day pipeline failure (src/main.py line 179) -/

theorem rsiSeries_length (w : ℕ) (p : List ℚ) : (rsiSeries w p).length = p.length := by
  rw [rsiSeries, List.length_map, rsSeries, List.length_zipWith, lossReplaced,
    List.length_map, rollMean_length, rollMean_length, gainsList_length,
    lossList_length]
  simp

theorem signals_length (q : Params) (maW rsiW : ℕ) (prices : List ℚ) :
    (signals q maW rsiW prices).length = prices.length := by
  rw [signals, signalsWith, signalsAux_length, zip3_length, rollMean_length,
    rsiSeries_length]
  simp

/-- Claim C10: with exactly one trading day the pipeline emits a single
signal, and the read of the previous day's signal at line 179
(`sig_prev = signals[-2]`) is an out-of-range access (Python raises
IndexError, modelled as `none`); with two or more days the same access
succeeds, so the pipeline needs at least two days of history. -/
theorem single_day_out_of_range :
    (∀ p : ℚ, (signals defaultParams 200 14 [p]).length = 1 ∧
      pyGet (signals defaultParams 200 14 [p]) (-2) = none) ∧
    (∀ prices : List ℚ, 2 ≤ prices.length →
      ∃ s, pyGet (signals defaultParams 200 14 prices) (-2) = some s) := by
  constructor
  · intro p
    have hlen : (signals defaultParams 200 14 [p]).length = 1 := by
      rw [signals_length]; rfl
    refine ⟨hlen, ?_⟩
    rw [pyGet, if_pos (by norm_num), hlen]
    rw [if_pos (by norm_num)]
  · intro prices h2
    have hlen : (signals defaultParams 200 14 prices).length = prices.length :=
      signals_length defaultParams 200 14 prices
    rw [pyGet, if_pos (by norm_num), hlen]
    rw [if_neg (by omega)]
    have htn : ((-2 : ℤ) + prices.length).toNat = prices.length - 2 := by omega
    rw [htn]
    exact ⟨_, List.get?_eq_get (by omega)⟩

theorem single_day_out_of_range_witness :
    ((signals defaultParams 200 14 [5]).length = 1 ∧
      pyGet (signals defaultParams 200 14 [(5 : ℚ)]) (-2) = none) ∧
    (2 ≤ ([(5 : ℚ), 6]).length ∧
      ∃ s, pyGet (signals defaultParams 200 14 [(5 : ℚ), 6]) (-2) = some s) :=
  ⟨single_day_out_of_range.1 5,
    by norm_num, single_day_out_of_range.2 [5, 6] (by norm_num)⟩

end NasdaqQQQ
